import Mathlib

/-!
Verification of the lexikon repository (src/hit_api.py and src/lexikon_v2.py).

The two Python scripts are shallowly embedded here:

* Python strings are modelled as `List Char` (`Word`); Python string operations
  (`lower`, `split`, `join`, regex substitution) are modelled character by
  character on that type.
* The external resources — the NLTK stop-word list, the googletrans backend,
  the Google Cloud batch backend, and the spaCy token stream — are parameters
  of the corresponding functions, since they are inputs of the scripts, not
  part of them.
* A Python run that raises an uncaught exception is modelled with `Except Unit`
  (`Except.error ()` is the aborted run).

All definitions are executable and kernel-reducible (structural recursion
only), so concrete runs can be settled by `decide` or `rfl`.
-/

namespace Lexikon

/-- A Python string, modelled as its list of characters. -/
abbrev Word := List Char

/-- The whitespace characters matched by the regex `\s` and by `str.split()` in
the scripts (the inputs these functions receive in the pipeline only ever
contain `' '` as whitespace, because `remove_punctuation` has already replaced
everything else). -/
def isPySpace (c : Char) : Bool :=
  c == ' ' || c == '\t' || c == '\n' || c == '\r' || c == '\x0b' || c == '\x0c'

/-- The source alphabet: the character class `[a-zäàâçéèêëîïôöûùüÿñæœß]` of the
regex in `remove_punctuation` (src/hit_api.py line 37). -/
def frAlphabet : List Char :=
  ['a', 'b', 'c', 'd', 'e', 'f', 'g', 'h', 'i', 'j', 'k', 'l', 'm',
   'n', 'o', 'p', 'q', 'r', 's', 't', 'u', 'v', 'w', 'x', 'y', 'z',
   'ä', 'à', 'â', 'ç', 'é', 'è', 'ê', 'ë', 'î', 'ï', 'ô', 'ö', 'û',
   'ù', 'ü', 'ÿ', 'ñ', 'æ', 'œ', 'ß']

/-- Membership in the source alphabet. -/
def isFrLetter (c : Char) : Bool := frAlphabet.contains c

/-- Python `str.lower`, modelled on the characters that can occur in the French
source text: ASCII `A`-`Z` (via `Char.toLower`) and the uppercase variants of
the diacritics of the source alphabet; every other character is unchanged
(any character this table misses is replaced by a space in
`remove_punctuation` immediately afterwards, so nothing downstream depends on
it). -/
def pyLowerChar (c : Char) : Char :=
  match c with
  | 'À' => 'à'
  | 'Â' => 'â'
  | 'Ä' => 'ä'
  | 'Ç' => 'ç'
  | 'É' => 'é'
  | 'È' => 'è'
  | 'Ê' => 'ê'
  | 'Ë' => 'ë'
  | 'Î' => 'î'
  | 'Ï' => 'ï'
  | 'Ô' => 'ô'
  | 'Ö' => 'ö'
  | 'Û' => 'û'
  | 'Ù' => 'ù'
  | 'Ü' => 'ü'
  | 'Ÿ' => 'ÿ'
  | 'Ñ' => 'ñ'
  | 'Æ' => 'æ'
  | 'Œ' => 'œ'
  | _ => c.toLower

/-- `text.lower()` (src/hit_api.py line 20). -/
def pyLower (s : Word) : Word := s.map pyLowerChar

/-- `remove_punctuation` (src/hit_api.py lines 36-38): every character outside
`[a-zäàâçéèêëîïôöûùüÿñæœß ]` is replaced by a single space. -/
def remove_punctuation (s : Word) : Word :=
  s.map (fun c => if isFrLetter c || c == ' ' then c else ' ')

/-- Helper for `pySplit`: `(splitAux s).1` is the word prefix of `s` up to the
first whitespace, `(splitAux s).2` the words of the remainder. -/
def splitAux : Word → Word × List Word
  | [] => ([], [])
  | c :: cs =>
    if isPySpace c then
      if (splitAux cs).1 = [] then ([], (splitAux cs).2)
      else ([], (splitAux cs).1 :: (splitAux cs).2)
    else (c :: (splitAux cs).1, (splitAux cs).2)

/-- Python `text.split()` with no argument: split on runs of whitespace,
dropping empty pieces. -/
def pySplit (s : Word) : List Word :=
  if (splitAux s).1 = [] then (splitAux s).2 else (splitAux s).1 :: (splitAux s).2

/-- Python `" ".join(ws)`. -/
def joinSpace : List Word → Word
  | [] => []
  | [w] => w
  | w :: ws => w ++ ' ' :: joinSpace ws

/-- `remove_stop_words` (src/hit_api.py lines 31-34), with the external NLTK
French stop-word list `sw` as a parameter:
`" ".join(word for word in text.split() if word not in sw)`. -/
def remove_stop_words (sw : List Word) (s : Word) : Word :=
  joinSpace ((pySplit s).filter (fun w => !sw.contains w))

/-- `normalize_whitespace` (src/hit_api.py lines 26-29): the regex substitution
`\s+` → `' '` (each maximal run of whitespace becomes one space; no
trimming). -/
def normalize_whitespace : Word → Word
  | [] => []
  | [c] => if isPySpace c then [' '] else [c]
  | c :: d :: cs =>
    if isPySpace c then
      if isPySpace d then normalize_whitespace (d :: cs)
      else ' ' :: normalize_whitespace (d :: cs)
    else c :: normalize_whitespace (d :: cs)

/-- `clean` (src/hit_api.py lines 19-24):
lower, then remove punctuation, then remove stop words, then normalize
whitespace. -/
def clean (sw : List Word) (s : Word) : Word :=
  normalize_whitespace (remove_stop_words sw (remove_punctuation (pyLower s)))

/-- `to_list` (src/hit_api.py lines 45-47): `text.split()`. -/
def to_list (s : Word) : List Word := pySplit s

/-- `normalize` (src/hit_api.py lines 49-51): `sorted(list(set(words)))`, the
sorted list of the distinct words under codepoint-lexicographic order (the
order Python uses on strings; `List Char` carries the same lexicographic
order). `List.dedup` keeps one copy of each word and `List.insertionSort`
orders them; since the order is total and antisymmetric this is exactly the
sorted list of the set. -/
def normalize (words : List Word) : List Word :=
  List.insertionSort (· ≤ ·) words.dedup

/-- `to_unique_list` (src/hit_api.py lines 40-43). -/
def to_unique_list (s : Word) : List Word := normalize (to_list s)

/-- `process` (src/hit_api.py lines 14-17): the whole text-processing stage. -/
def process (sw : List Word) (s : Word) : List Word := to_unique_list (clean sw s)

/-! ## The per-word translation loop of src/hit_api.py (lines 65-97) -/

/-- One dictionary appended to the global `lexicon` list
(src/hit_api.py lines 81-93). -/
structure Entry where
  Source : Word
  PartOfSpeech : Word
  Target : Word
  deriving DecidableEq, Repr

/-- The shape of a googletrans result object, as the loop inspects it
(src/hit_api.py lines 76-77): either the result lacks the `extra_data`
attribute (`noExtraData`), or it has `extra_data` in which the
`all-translations` entry is absent or `None` (modelled `extraData none`) or a
list of `(part_of_speech, target list)` pairs (an item `translation` of that
list is read as `translation[0]` and `translation[1][0]`). -/
inductive QueryResult where
  | noExtraData : QueryResult
  | extraData : Option (List (Word × List Word)) → QueryResult
  deriving DecidableEq

/-- The per-word translation backend: `query_one_word` calls
`translator.translate` (src/hit_api.py lines 65-68), which either returns a
result object or raises (modelled `Except.error ()`); the script wraps it in
no try/except. -/
abbrev Backend := Word → Except Unit QueryResult

/-- The sentinel entry appended when `extra_data` has no usable
`all-translations` (src/hit_api.py lines 88-93). -/
def sentinel (w : Word) : Entry := ⟨w, "?".data, "???".data⟩

/-- The inner `for translation in ...` loop (src/hit_api.py lines 78-86): one
entry `{Source: w, PartOfSpeech: translation[0], Target: translation[1][0]}`
per item, in order. An item whose target list `translation[1]` is empty makes
`translation[1][0]` raise IndexError, aborting the run. -/
def buildEntries (w : Word) : List (Word × List Word) → Except Unit (List Entry)
  | [] => .ok []
  | (pos, tgts) :: rest =>
    match tgts with
    | [] => .error ()
    | t :: _ =>
      match buildEntries w rest with
      | .error e => .error e
      | .ok es => .ok (⟨w, pos, t⟩ :: es)

/-- The body of the lexicon-building loop for one word
(src/hit_api.py lines 76-93): nothing is appended when the result lacks
`extra_data`; the sentinel is appended when `all-translations` is absent or
`None`; otherwise one entry per translation item. -/
def handleResult (w : Word) : QueryResult → Except Unit (List Entry)
  | .noExtraData => .ok []
  | .extraData none => .ok [sentinel w]
  | .extraData (some ts) => buildEntries w ts

/-- The lexicon-building loop (src/hit_api.py lines 73-93): each word is sent
to the backend in turn; an exception raised by the backend call or by the loop
body propagates and aborts the run before the output loop prints anything. -/
def buildLexicon (bk : Backend) : List Word → Except Unit (List Entry)
  | [] => .ok []
  | w :: ws =>
    match bk w with
    | .error e => .error e
    | .ok r =>
      match handleResult w r with
      | .error e => .error e
      | .ok es =>
        match buildLexicon bk ws with
        | .error e => .error e
        | .ok rest => .ok (es ++ rest)

/-- One printed line of the output loop (src/hit_api.py line 97):
`f"{line['Source']} ({line['PartOfSpeech']}) - {line['Target']}"`. -/
def renderLine (e : Entry) : Word :=
  e.Source ++ " (".data ++ e.PartOfSpeech ++ ") - ".data ++ e.Target

/-- The output loop (src/hit_api.py lines 96-97), as the list of printed
lines: exactly one line per lexicon entry, in lexicon order. -/
def renderPerWord (lex : List Entry) : List Word := lex.map renderLine

/-- The lexicon entries whose `Source` is `w` — the senses the final lexicon
holds for base form `w`. -/
def entriesFor (lex : List Entry) (w : Word) : List Entry :=
  lex.filter (fun e => e.Source == w)

/-- A backend result the loop body can process without raising and without
silently dropping the word: `extra_data` is present, and `all-translations` is
either unusable (absent/`None`, the sentinel case) or a non-empty list whose
items all have a non-empty target list. -/
def benignResult : QueryResult → Bool
  | .noExtraData => false
  | .extraData none => true
  | .extraData (some ts) => !ts.isEmpty && ts.all (fun t => !t.2.isEmpty)

/-- A backend call that returns (does not raise) a benign result. -/
def benignResponse : Except Unit QueryResult → Bool
  | .error _ => false
  | .ok r => benignResult r

/-- The entries the loop contributes for word `w` (empty when the response is
not processable; meaningful under `benignResponse`). -/
def okEntries (bk : Backend) (w : Word) : List Entry :=
  match bk w with
  | .error _ => []
  | .ok r =>
    match handleResult w r with
    | .error _ => []
    | .ok es => es

/-- The whole lexicon as the concatenation of each word's contribution, in
word order — what the loop builds when no exception is raised. -/
def lexiconOf (bk : Backend) : List Word → List Entry
  | [] => []
  | w :: ws => okEntries bk w ++ lexiconOf bk ws

/-! ## The batch pipeline of src/lexikon_v2.py -/

/-- One sense dict `{'pos': ..., 'translation': ...}` as built by
`translate_word_list` (src/lexikon_v2.py lines 129-134), as the pair
(part of speech, translation). -/
abbrev Sense := Word × Word

/-- Python dict assignment `d[k] = v`, on a dict modelled as an association
list in insertion order: overwrite in place if the key is present, else append
at the end. -/
def dictInsert (d : List (Word × List Sense)) (k : Word) (v : List Sense) :
    List (Word × List Sense) :=
  if d.any (fun p => p.1 == k) then
    d.map (fun p => if p.1 == k then (k, v) else p)
  else d ++ [(k, v)]

/-- Python dict lookup (`word in data` / `data[word]`). -/
def dictFind (d : List (Word × List Sense)) (k : Word) : Option (List Sense) :=
  (d.find? (fun p => p.1 == k)).map (fun p => p.2)

/-- The loop of `translate_word_list` (src/lexikon_v2.py lines 108-134):
`for i, translation in enumerate(response.translations):
lexicon_data[words[i]] = [{'pos': '?', 'translation': translation}]`.
If the response is longer than `words`, `words[i]` raises IndexError. -/
def twlLoop (words : List Word) :
    Nat → List Word → List (Word × List Sense) → Except Unit (List (Word × List Sense))
  | _, [], d => .ok d
  | i, t :: ts, d =>
    match words[i]? with
    | none => .error ()
    | some w => twlLoop words (i + 1) ts (dictInsert d w [("?".data, t)])

/-- `translate_word_list` (src/lexikon_v2.py lines 72-136), with the batch
backend's positionally aligned response list `ts` as a parameter (the network
call itself is external). -/
def translate_word_list (words ts : List Word) : Except Unit (List (Word × List Sense)) :=
  twlLoop words 0 ts []

/-- The `output_lines` list built by `format_lexicon_output`
(src/lexikon_v2.py lines 146-161): for each lemma, in lemma-list order, one
line `f"{word} - {translation_text}"` built from the FIRST sense
`data[word][0]`, provided `word in data and data[word]` (missing words and
empty sense lists are skipped). -/
def format_lexicon_lines (data : List (Word × List Sense)) (spacy_lemmas : List Word) :
    List Word :=
  spacy_lemmas.filterMap (fun w =>
    match dictFind data w with
    | none => none
    | some [] => none
    | some (s :: _) => some (w ++ " - ".data ++ s.2))

/-- Python `"\n".join(lines)` (src/lexikon_v2.py line 163). -/
def joinLines : List Word → Word
  | [] => []
  | [w] => w
  | w :: ws => w ++ '\n' :: joinLines ws

/-- `format_lexicon_output` (src/lexikon_v2.py lines 140-163). -/
def format_lexicon_output (data : List (Word × List Sense)) (spacy_lemmas : List Word) :
    Word :=
  joinLines (format_lexicon_lines data spacy_lemmas)

/-- A grouped Lexicon (base form with its ordered sense list), flattened to
the per-word script's flat entry list: the entries of each base form,
contiguously, in lexicon order. -/
def flattenLex : List (Word × List Sense) → List Entry
  | [] => []
  | (w, ss) :: rest => ss.map (fun s => ⟨w, s.1, s.2⟩) ++ flattenLex rest

/-- One `source (partOfSpeech) - target` line per (base form, sense) pair of a
grouped Lexicon, base forms in lexicon order, senses in original order — the
output shape the spec describes for per-word mode. -/
def pairLines : List (Word × List Sense) → List Word
  | [] => []
  | (w, ss) :: rest =>
    ss.map (fun s => w ++ " (".data ++ s.1 ++ ") - ".data ++ s.2) ++ pairLines rest

/-! ## extract_unique_lemmas of src/lexikon_v2.py (lines 36-67) -/

/-- One spaCy token as `extract_unique_lemmas` consumes it. spaCy itself is
the external tagging capability, so the per-token attributes the function
reads (`lemma_`, `pos_`, `is_alpha`, `is_stop`) are the input of the model. -/
structure SpacyToken where
  lemma_ : Word
  pos_ : Word
  is_alpha : Bool
  is_stop : Bool

/-- The `undesirable_pos` set (src/lexikon_v2.py line 45). -/
def undesirable_pos : List Word :=
  ["SPACE".data, "PUNCT".data, "SYM".data, "NUM".data, "X".data,
   "DET".data, "ADP".data, "SCONJ".data, "CCONJ".data, "AUX".data]

/-- Python `str.strip()`: remove leading and trailing whitespace. -/
def pyStrip (s : Word) : Word :=
  ((s.dropWhile isPySpace).reverse.dropWhile isPySpace).reverse

/-- The one-letter tuple `('y', 'a', 'à', 'ô', 'ç')` of src/lexikon_v2.py
line 59. The code KEEPS a one-letter lemma exactly when it is NOT in this
tuple, i.e. the tuple is a block-list of one-letter lemmas. -/
def oneLetterBlockList : List Word :=
  ["y".data, "a".data, "à".data, "ô".data, "ç".data]

/-- The per-token filter and lemma normalisation of `extract_unique_lemmas`
(src/lexikon_v2.py lines 49-64): keep the token if it is alphabetic, not a
stop word and its POS is not undesirable; then
`lemma = token.lemma_.lower().strip()`, kept if `len(lemma) > 1 or
(len(lemma) == 1 and lemma not in ('y', 'a', 'à', 'ô', 'ç'))`. -/
def tokenLemma (t : SpacyToken) : Option Word :=
  if t.is_alpha && !t.is_stop && !undesirable_pos.contains t.pos_ then
    let lem := pyStrip (pyLower t.lemma_)
    if lem.length > 1 || (lem.length == 1 && !oneLetterBlockList.contains lem) then
      some lem
    else none
  else none

/-- `extract_unique_lemmas` (src/lexikon_v2.py lines 36-67): the retained
lemmas, deduplicated keeping first occurrences (the `unique_lemmas` dict
keyed by lemma) and then sorted — `sorted(list(unique_lemmas.keys()))`. -/
def extract_unique_lemmas (doc : List SpacyToken) : List Word :=
  List.insertionSort (· ≤ ·) (doc.filterMap tokenLemma).dedup

/-! ## The shape predicates used to state the normalizer claims -/

/-- Every character is a source-alphabet letter or a space. -/
def onlyLettersAndSpaces (s : Word) : Bool :=
  s.all (fun c => isFrLetter c || c == ' ')

/-- The string does not start with a space. -/
def noLeadingSpace : Word → Bool
  | [] => true
  | c :: _ => !(c == ' ')

/-- The string does not end with a space. -/
def noTrailingSpace : Word → Bool
  | [] => true
  | [c] => !(c == ' ')
  | _ :: d :: cs => noTrailingSpace (d :: cs)

/-- No two adjacent characters are both spaces. -/
def noDoubleSpace : Word → Bool
  | [] => true
  | [_] => true
  | c :: d :: cs => !(c == ' ' && d == ' ') && noDoubleSpace (d :: cs)

/-! ## Derived notions and concrete instances used in the statements -/

/-- The words of a cleaned text before re-joining: the split of the
depunctuated lowered text, with stop words removed. -/
def cleanWords (sw : List Word) (s : Word) : List Word :=
  (pySplit (remove_punctuation (pyLower s))).filter (fun w => !sw.contains w)

/-- A well-formed word list for `joinSpace`: every word is non-empty and free
of whitespace. -/
def goodWords (ws : List Word) : Prop :=
  ∀ w ∈ ws, w ≠ [] ∧ ∀ c ∈ w, isPySpace c = false

/-- A backend whose response has `extra_data` with `all-translations` bound to
an EMPTY list: `[] is not None` is `True` in Python, so the loop takes the
multi-sense branch and its inner `for` appends nothing. -/
def emptyTransBackend : Backend := fun _ => .ok (.extraData (some []))

/-- A concrete benign backend: `chat` resolves to one NOUN sense, every other
word comes back with `all-translations` absent/None. -/
def mixedBackend : Backend := fun w =>
  if w = "chat".data then .ok (.extraData (some [("NOUN".data, ["cat".data])]))
  else .ok (.extraData none)

/-- A backend that raises for every word except `chat` — the scenario of the
claim's own example, where resolving `souris` throws. -/
def throwingBackend : Backend := fun w =>
  if w = "chat".data then .ok (.extraData (some [("?".data, ["cat".data])]))
  else .error ()

/-- A second concrete benign backend for the C2 scenario: `chat` succeeds
with one sense, `souris` (and anything else) comes back unresolved. -/
def sourisFailsBackend : Backend := fun w =>
  if w = "chat".data then .ok (.extraData (some [("?".data, ["cat".data])]))
  else .ok (.extraData none)

/-- The backend of the spec's per-word multi-sense example: `voler` has the
two VERB senses `to fly` and `to steal`, in that order. -/
def volerBackend : Backend := fun w =>
  if w = "voler".data
  then .ok (.extraData (some [("VERB".data, ["to fly".data]),
                              ("VERB".data, ["to steal".data])]))
  else .ok (.extraData none)

/-- A grouped Lexicon in which one base form has two senses: batch-mode
formatting renders it as a single line built from the first sense only. -/
def multiSenseLexicon : List (Word × List Sense) :=
  [("chat".data, [("?".data, "cat".data), ("?".data, "kitty".data)])]

/-- The batch lexicon of the spec's example, every sense list a singleton. -/
def batchLexicon : List (Word × List Sense) :=
  [("chat".data, [("?".data, "cat".data)]), ("souris".data, [("?".data, "mouse".data)])]

/-- A spaCy token whose lemma is the single letter `b`: alphabetic, not a stop
word, a noun — it passes every filter of `extract_unique_lemmas` because the
one-letter tuple `('y', 'a', 'à', 'ô', 'ç')` is a block-list, not an
allow-list. -/
def oneLetterToken : SpacyToken := ⟨"b".data, "NOUN".data, true, false⟩

/-! ## Lemmas about the Deduplicator (`normalize`) -/

lemma normalize_sorted_le (l : List Word) : (normalize l).Sorted (· ≤ ·) :=
  List.sorted_insertionSort _ _

lemma normalize_nodup (l : List Word) : (normalize l).Nodup :=
  ((List.perm_insertionSort _ _).nodup_iff).mpr (List.nodup_dedup l)

lemma normalize_of_sorted_nodup {l : List Word} (hn : l.Nodup)
    (hs : l.Sorted (· ≤ ·)) : normalize l = l := by
  unfold normalize
  rw [List.dedup_eq_self.mpr hn, List.Sorted.insertionSort_eq hs]

lemma normalize_sorted_lt (l : List Word) : (normalize l).Sorted (· < ·) :=
  (normalize_sorted_le l).lt_of_le (normalize_nodup l)

lemma mem_normalize {l : List Word} {w : Word} (h : w ∈ normalize l) : w ∈ l := by
  unfold normalize at h
  exact List.mem_dedup.mp ((List.perm_insertionSort _ _).mem_iff.mp h)

/-- Claim C6: the Deduplicator is idempotent — `dedupe(dedupe(S)) = dedupe(S)`
for every sequence `S`, and deduplicating a sequence that is already
deduplicated and sorted returns it unchanged. (`normalize`,
src/hit_api.py lines 49-51, is `sorted(list(set(words)))`.) -/
theorem C6_dedupe_idempotent :
    (∀ S : List Word, normalize (normalize S) = normalize S) ∧
    (∀ S : List Word, S.Nodup → S.Sorted (· ≤ ·) → normalize S = S) :=
  ⟨fun S => normalize_of_sorted_nodup (normalize_nodup S) (normalize_sorted_le S),
   fun _ hn hs => normalize_of_sorted_nodup hn hs⟩

/-- Witness for C6 on concrete inputs. -/
theorem C6_dedupe_idempotent_witness :
    normalize (normalize ["le".data, "chat".data, "le".data])
      = normalize ["le".data, "chat".data, "le".data] ∧
    normalize ["chat".data, "le".data] = ["chat".data, "le".data] :=
  ⟨C6_dedupe_idempotent.1 _,
   C6_dedupe_idempotent.2 ["chat".data, "le".data] (by decide) (by decide)⟩

/-- Claim C7: the deduplicated output is strictly increasing under the
implementation's collation (codepoint-lexicographic order), hence duplicate
free — both for `normalize` (src/hit_api.py) and for the sorted unique lemma
list of `extract_unique_lemmas` (src/lexikon_v2.py lines 66-67). -/
theorem C7_dedupe_strictly_increasing :
    (∀ S : List Word, (normalize S).Sorted (· < ·)) ∧
    (∀ doc : List SpacyToken, (extract_unique_lemmas doc).Sorted (· < ·)) :=
  ⟨normalize_sorted_lt, fun doc => normalize_sorted_lt (doc.filterMap tokenLemma)⟩

/-! ## Lemmas about the batch resolver (`translate_word_list`) -/

lemma dictInsert_fresh {d : List (Word × List Sense)} {k : Word}
    (h : ∀ p ∈ d, p.1 ≠ k) (v : List Sense) : dictInsert d k v = d ++ [(k, v)] := by
  unfold dictInsert
  rw [if_neg]
  simp only [List.any_eq_true, beq_iff_eq, not_exists]
  intro p
  exact fun hp => h p hp.1 hp.2

lemma twlLoop_spec (ws : List Word) :
    ∀ (rest : List Word) (i : Nat) (d : List (Word × List Sense)),
      i + rest.length = ws.length →
      (ws.drop i).Nodup →
      (∀ p ∈ d, p.1 ∉ ws.drop i) →
      twlLoop ws i rest d
        = .ok (d ++ (ws.drop i).zip (rest.map (fun t => [("?".data, t)])))
  | [], i, d, hlen, _, _ => by
      have hi : i = ws.length := by simpa using hlen
      subst hi
      simp [twlLoop, List.drop_length]
  | t :: rest, i, d, hlen, hnd, hfresh => by
      have hi : i < ws.length := by
        simp only [List.length_cons] at hlen
        omega
      have hget : ws[i]? = some ws[i] := List.getElem?_eq_getElem hi
      have hdrop : ws.drop i = ws[i] :: ws.drop (i + 1) := List.drop_eq_getElem_cons hi
      rw [hdrop] at hnd hfresh
      have hnotmem : ws[i] ∉ ws.drop (i + 1) := (List.nodup_cons.mp hnd).1
      have hstep :
          twlLoop ws (i + 1) rest (d ++ [(ws[i], [("?".data, t)])])
            = .ok ((d ++ [(ws[i], [("?".data, t)])])
                ++ (ws.drop (i + 1)).zip (rest.map (fun t => [("?".data, t)]))) := by
        refine twlLoop_spec ws rest (i + 1) _ ?_ ?_ ?_
        · simp only [List.length_cons] at hlen
          omega
        · exact (List.nodup_cons.mp hnd).2
        · intro p hp
          rcases List.mem_append.mp hp with hp' | hp'
          · exact fun hmem => hfresh p hp' (List.mem_cons_of_mem _ hmem)
          · simp only [List.mem_singleton] at hp'
            subst hp'
            exact hnotmem
      have hfreshK : ∀ p ∈ d, p.1 ≠ ws[i] := by
        intro p hp
        intro hk
        exact hfresh p hp (hk ▸ List.mem_cons_self _ _)
      calc twlLoop ws i (t :: rest) d
          = twlLoop ws (i + 1) rest (dictInsert d ws[i] [("?".data, t)]) := by
            simp [twlLoop, hget]
        _ = twlLoop ws (i + 1) rest (d ++ [(ws[i], [("?".data, t)])]) := by
            rw [dictInsert_fresh hfreshK]
        _ = .ok (d ++ (ws.drop i).zip ((t :: rest).map (fun t => [("?".data, t)]))) := by
            rw [hstep, hdrop, List.map_cons, List.zip_cons_cons]
            simp only [List.append_assoc, List.singleton_append]

/-- Counterexample to claim C3 as stated: the claim quantifies over every
request word list, but for a list with a repeated word the dict assignment
`lexicon_data[words[i]] = ...` overwrites the earlier binding, so index 0 is
NOT sent to its aligned translation: resolving `["chat", "chat"]` against
`["cat", "mouse"]` leaves `chat` bound to `[("?", "mouse")]`, not to the
`[("?", "cat")]` required for index 0. -/
theorem C3_counterexample :
    translate_word_list ["chat".data, "chat".data] ["cat".data, "mouse".data]
      = .ok [("chat".data, [("?".data, "mouse".data)])] ∧
    (("?".data, "mouse".data) : Sense) ≠ ("?".data, "cat".data) :=
  ⟨by rfl, by decide⟩

/-- Claim C3, amended: for every DUPLICATE-FREE request word list `ws` (as the
Deduplicator produces) and positionally aligned response `ts` of equal length,
batch resolution succeeds and returns exactly the mapping that binds `ws[i]`
to the one-element sense list `[("?", ts[i])]`, in request order. -/
theorem C3_batch_alignment (ws ts : List Word) (hnd : ws.Nodup)
    (hlen : ts.length = ws.length) :
    translate_word_list ws ts
      = .ok (ws.zip (ts.map (fun t => [(("?".data : Word), t)]))) := by
  unfold translate_word_list
  have h := twlLoop_spec ws ts 0 [] (by simpa using hlen) (by simpa using hnd)
    (by intro p hp; cases hp)
  simpa using h

/-- Witness for C3 on the spec's own example: `["chat", "souris"]` against
`["cat", "mouse"]` resolves to `{chat: [("?", "cat")], souris: [("?", "mouse")]}`. -/
theorem C3_batch_alignment_witness :
    translate_word_list ["chat".data, "souris".data] ["cat".data, "mouse".data]
      = .ok [("chat".data, [("?".data, "cat".data)]),
             ("souris".data, [("?".data, "mouse".data)])] :=
  C3_batch_alignment ["chat".data, "souris".data] ["cat".data, "mouse".data]
    (by decide) (by decide)

/-! ## Lemmas about the per-word lexicon-building loop -/

lemma buildEntries_ok (w : Word) {ts : List (Word × List Word)}
    (h : ∀ t ∈ ts, t.2 ≠ []) :
    buildEntries w ts = .ok (ts.map (fun t => ⟨w, t.1, t.2.headD []⟩)) := by
  induction ts with
  | nil => rfl
  | cons t rest ih =>
      obtain ⟨pos, tgts⟩ := t
      cases tgts with
      | nil => exact absurd rfl (h (pos, []) (List.mem_cons_self _ _))
      | cons x xs =>
          have hrest := ih (fun t ht => h t (List.mem_cons_of_mem _ ht))
          simp [buildEntries, hrest]

lemma buildEntries_source (w : Word) :
    ∀ (ts : List (Word × List Word)) (es : List Entry),
      buildEntries w ts = .ok es → ∀ e ∈ es, e.Source = w
  | [], es, h => by
      cases h
      intro e he
      cases he
  | (pos, tgts) :: rest, es, h => by
      cases tgts with
      | nil => cases h
      | cons x xs =>
          simp only [buildEntries] at h
          cases hrest : buildEntries w rest with
          | error e => rw [hrest] at h; cases h
          | ok es' =>
              rw [hrest] at h
              cases h
              intro e he
              rcases List.mem_cons.mp he with rfl | he'
              · rfl
              · exact buildEntries_source w rest es' hrest e he'

lemma handleResult_source {w : Word} {r : QueryResult} {es : List Entry}
    (h : handleResult w r = .ok es) : ∀ e ∈ es, e.Source = w := by
  cases r with
  | noExtraData =>
      cases h
      intro e he
      cases he
  | extraData o =>
      cases o with
      | none =>
          cases h
          intro e he
          rcases List.mem_singleton.mp he with rfl
          rfl
      | some ts => exact buildEntries_source w ts es h

lemma benign_handleResult (w : Word) {r : QueryResult} (h : benignResult r = true) :
    ∃ es, handleResult w r = .ok es ∧ es ≠ [] ∧
      (r = .extraData none → es = [sentinel w]) := by
  cases r with
  | noExtraData => cases h
  | extraData o =>
      cases o with
      | none => exact ⟨[sentinel w], rfl, by simp, fun _ => rfl⟩
      | some ts =>
          have hne : ts ≠ [] := by
            intro hnil
            subst hnil
            simp [benignResult] at h
          have htg : ∀ t ∈ ts, t.2 ≠ [] := by
            intro t ht hnil
            simp only [benignResult, Bool.and_eq_true, List.all_eq_true] at h
            have h2 := h.2 t ht
            rw [hnil] at h2
            simp at h2
          refine ⟨ts.map (fun t => ⟨w, t.1, t.2.headD []⟩), ?_, ?_, ?_⟩
          · show buildEntries w ts = _
            exact buildEntries_ok w htg
          · intro hmap
            exact hne (List.eq_nil_of_length_eq_zero
              (by simpa using congrArg List.length hmap))
          · intro hcontra
            simp at hcontra

lemma okEntries_eq {bk : Backend} {w : Word} {r : QueryResult} (hbk : bk w = .ok r)
    {es : List Entry} (hh : handleResult w r = .ok es) : okEntries bk w = es := by
  simp [okEntries, hbk, hh]

lemma okEntries_source (bk : Backend) (w : Word) : ∀ e ∈ okEntries bk w, e.Source = w := by
  cases hbk : bk w with
  | error err =>
      have hz : okEntries bk w = [] := by simp [okEntries, hbk]
      rw [hz]
      intro e he
      cases he
  | ok r =>
      cases hh : handleResult w r with
      | error err =>
          have hz : okEntries bk w = [] := by simp [okEntries, hbk, hh]
          rw [hz]
          intro e he
          cases he
      | ok es =>
          rw [okEntries_eq hbk hh]
          exact handleResult_source hh

lemma buildLexicon_ok (bk : Backend) :
    ∀ ws : List Word, (∀ w ∈ ws, benignResponse (bk w) = true) →
      buildLexicon bk ws = .ok (lexiconOf bk ws)
  | [], _ => rfl
  | w :: ws, h => by
      have hw := h w (List.mem_cons_self _ _)
      cases hbk : bk w with
      | error e =>
          rw [hbk] at hw
          simp [benignResponse] at hw
      | ok r =>
          rw [hbk] at hw
          simp only [benignResponse] at hw
          obtain ⟨es, hh, -, -⟩ := benign_handleResult w hw
          have hrest := buildLexicon_ok bk ws (fun v hv => h v (List.mem_cons_of_mem _ hv))
          simp only [buildLexicon, hbk, hh, hrest, lexiconOf, okEntries_eq hbk hh]

lemma lexiconOf_source (bk : Backend) :
    ∀ (ws : List Word) (e : Entry), e ∈ lexiconOf bk ws → ∃ v ∈ ws, e.Source = v
  | [], e, he => by cases he
  | w :: ws, e, he => by
      rcases List.mem_append.mp he with he' | he'
      · exact ⟨w, List.mem_cons_self _ _, okEntries_source bk w e he'⟩
      · obtain ⟨v, hv, hs⟩ := lexiconOf_source bk ws e he'
        exact ⟨v, List.mem_cons_of_mem _ hv, hs⟩

lemma entriesFor_append (l₁ l₂ : List Entry) (w : Word) :
    entriesFor (l₁ ++ l₂) w = entriesFor l₁ w ++ entriesFor l₂ w := by
  simp [entriesFor]

lemma entriesFor_eq_self {l : List Entry} {w : Word} (h : ∀ e ∈ l, e.Source = w) :
    entriesFor l w = l :=
  List.filter_eq_self.mpr (fun e he => by simp [h e he])

lemma entriesFor_eq_nil {l : List Entry} {w : Word} (h : ∀ e ∈ l, e.Source ≠ w) :
    entriesFor l w = [] := by
  unfold entriesFor
  rw [List.filter_eq_nil_iff]
  intro e he
  simp [h e he]

lemma entriesFor_lexiconOf (bk : Backend) :
    ∀ ws : List Word, ws.Nodup → ∀ w ∈ ws,
      entriesFor (lexiconOf bk ws) w = okEntries bk w
  | [], _, w, hw => by cases hw
  | v :: vs, hnd, w, hw => by
      rw [lexiconOf, entriesFor_append]
      rcases List.mem_cons.mp hw with rfl | hw'
      · rw [entriesFor_eq_self (okEntries_source bk w),
            entriesFor_eq_nil (fun e he hs => ?_), List.append_nil]
        obtain ⟨u, hu, hsu⟩ := lexiconOf_source bk vs e he
        exact (List.nodup_cons.mp hnd).1 ((hs ▸ hsu) ▸ hu)
      · have hne : v ≠ w := fun hvw =>
          (List.nodup_cons.mp hnd).1 (hvw ▸ hw')
        rw [entriesFor_eq_nil (fun e he => (okEntries_source bk v e he) ▸ hne),
            List.nil_append]
        exact entriesFor_lexiconOf bk vs (List.nodup_cons.mp hnd).2 w hw'

/-- Counterexample to claim C1 as stated: the claim quantifies over every
translation-backend behaviour, but when the backend answers with an empty
`all-translations` list the guard
`"all-translations" in result.extra_data and ... is not None`
(src/hit_api.py line 77) is still true, the inner loop iterates zero times,
and NO entry — not even the sentinel — is appended: the run completes with an
empty lexicon although `"chat"` was in the deduplicated base-form set. (A
result without the `extra_data` attribute drops the word the same way, via the
outer `hasattr` guard at line 76.) -/
theorem C1_counterexample :
    buildLexicon emptyTransBackend ["chat".data] = .ok [] ∧
    "chat".data ∈ ["chat".data] ∧
    entriesFor [] "chat".data = [] :=
  ⟨rfl, by decide, rfl⟩

/-- Claim C1, amended: for every duplicate-free base-form list (as the
Deduplicator produces) and every backend that, for each word, RETURNS a
response whose `extra_data` is present and whose `all-translations` is either
unusable (absent/`None`) or a non-empty list of translations with non-empty
target lists, the run completes, every base form appears in the final lexicon
with a non-empty entry list, and a word whose response had no usable senses
gets exactly the single sentinel `("?", "???")`. (The amendment excludes the
behaviours of the counterexample: a response without `extra_data` or with an
empty `all-translations` list silently drops the word, and a raised exception
aborts the run.) -/
theorem C1_sentinel_completeness (bk : Backend) (ws : List Word) (hnd : ws.Nodup)
    (hb : ∀ w ∈ ws, benignResponse (bk w) = true) :
    buildLexicon bk ws = .ok (lexiconOf bk ws) ∧
    ∀ w ∈ ws, entriesFor (lexiconOf bk ws) w ≠ [] ∧
      (bk w = .ok (.extraData none) →
        entriesFor (lexiconOf bk ws) w = [sentinel w]) := by
  refine ⟨buildLexicon_ok bk ws hb, fun w hw => ?_⟩
  have hbw := hb w hw
  rw [entriesFor_lexiconOf bk ws hnd w hw]
  cases hbk : bk w with
  | error err =>
      rw [hbk] at hbw
      simp [benignResponse] at hbw
  | ok r =>
      rw [hbk] at hbw
      simp only [benignResponse] at hbw
      obtain ⟨es, hh, hne, hsent⟩ := benign_handleResult w hbw
      rw [okEntries_eq hbk hh]
      refine ⟨hne, fun h0 => ?_⟩
      exact hsent (Except.ok.inj h0)

/-- Witness for C1: with `mixedBackend`, `souris` (unresolved) gets exactly
the sentinel entry and `chat` has a non-empty entry list. -/
theorem C1_sentinel_completeness_witness :
    entriesFor (lexiconOf mixedBackend ["chat".data, "souris".data]) "souris".data
      = [sentinel "souris".data] ∧
    entriesFor (lexiconOf mixedBackend ["chat".data, "souris".data]) "chat".data ≠ [] :=
  ⟨((C1_sentinel_completeness mixedBackend ["chat".data, "souris".data]
      (by decide) (by decide)).2 "souris".data (by decide)).2 rfl,
   ((C1_sentinel_completeness mixedBackend ["chat".data, "souris".data]
      (by decide) (by decide)).2 "chat".data (by decide)).1⟩

/-- Counterexample to claim C2 as stated: `query_one_word`
(src/hit_api.py lines 65-68) wraps `translator.translate` in no try/except,
so when the backend call for `souris` throws while `chat` succeeds the
exception propagates and the whole run aborts — it does NOT complete with
`souris` degraded to the sentinel. -/
theorem C2_counterexample :
    buildLexicon throwingBackend ["chat".data, "souris".data] = .error () := rfl

/-- Claim C2, amended: an exception from the backend call aborts the whole
run; what does degrade a single base form to the sentinel, with every other
base form keeping its resolved senses and the run completing, is a RETURNED
response whose `extra_data` lacks a usable `all-translations` (absent or
`None`) — provided every word's call returns a processable response. -/
theorem C2_partial_failure (bk : Backend) (ws : List Word) (w₀ : Word)
    (hnd : ws.Nodup) (hb : ∀ w ∈ ws, benignResponse (bk w) = true)
    (hmem : w₀ ∈ ws) (h₀ : bk w₀ = .ok (.extraData none)) :
    buildLexicon bk ws = .ok (lexiconOf bk ws) ∧
    entriesFor (lexiconOf bk ws) w₀ = [sentinel w₀] ∧
    ∀ w ∈ ws, w ≠ w₀ → entriesFor (lexiconOf bk ws) w = okEntries bk w := by
  refine ⟨buildLexicon_ok bk ws hb, ?_, fun w hw _ => entriesFor_lexiconOf bk ws hnd w hw⟩
  rw [entriesFor_lexiconOf bk ws hnd w₀ hmem]
  exact okEntries_eq h₀ rfl

/-- Witness for C2 (amended) on the claim's example: `souris` unresolved,
`chat` fine — the run completes, `souris` maps to the sentinel and `chat`
keeps its resolved sense. -/
theorem C2_partial_failure_witness :
    buildLexicon sourisFailsBackend ["chat".data, "souris".data]
      = .ok (lexiconOf sourisFailsBackend ["chat".data, "souris".data]) ∧
    entriesFor (lexiconOf sourisFailsBackend ["chat".data, "souris".data]) "souris".data
      = [sentinel "souris".data] ∧
    entriesFor (lexiconOf sourisFailsBackend ["chat".data, "souris".data]) "chat".data
      = okEntries sourisFailsBackend "chat".data :=
  ⟨(C2_partial_failure sourisFailsBackend ["chat".data, "souris".data] "souris".data
      (by decide) (by decide) (by decide) rfl).1,
   (C2_partial_failure sourisFailsBackend ["chat".data, "souris".data] "souris".data
      (by decide) (by decide) (by decide) rfl).2.1,
   (C2_partial_failure sourisFailsBackend ["chat".data, "souris".data] "souris".data
      (by decide) (by decide) (by decide) rfl).2.2 "chat".data (by decide) (by decide)⟩

/-- Claim C4: in per-word mode, a word whose backend result carries a
(non-null) multi-sense `all-translations` list resolves to one entry
`(partOfSpeech, first target)` per backend translation — all of them, in the
order returned. (Hypotheses: the base-form list is duplicate-free and every
response is processable, which the claim's scenario presupposes; `t.2.headD []`
is `translation[1][0]`, the first target, the default being unreachable since
benignity makes target lists non-empty.) -/
theorem C4_multisense_preserved (bk : Backend) (ws : List Word) (w : Word)
    (ts : List (Word × List Word)) (hnd : ws.Nodup)
    (hb : ∀ v ∈ ws, benignResponse (bk v) = true) (hmem : w ∈ ws)
    (hbk : bk w = .ok (.extraData (some ts))) :
    buildLexicon bk ws = .ok (lexiconOf bk ws) ∧
    entriesFor (lexiconOf bk ws) w
      = ts.map (fun t => ⟨w, t.1, t.2.headD []⟩) := by
  refine ⟨buildLexicon_ok bk ws hb, ?_⟩
  have hbw := hb w hmem
  rw [hbk] at hbw
  simp only [benignResponse] at hbw
  have htg : ∀ t ∈ ts, t.2 ≠ [] := by
    intro t ht hnil
    simp only [benignResult, Bool.and_eq_true, List.all_eq_true] at hbw
    have h2 := hbw.2 t ht
    rw [hnil] at h2
    simp at h2
  rw [entriesFor_lexiconOf bk ws hnd w hmem]
  exact okEntries_eq hbk (buildEntries_ok w htg)

/-- Witness for C4 on the spec's example: `voler` resolves to both senses, in
backend order. -/
theorem C4_multisense_preserved_witness :
    entriesFor (lexiconOf volerBackend ["voler".data]) "voler".data
      = [⟨"voler".data, "VERB".data, "to fly".data⟩,
         ⟨"voler".data, "VERB".data, "to steal".data⟩] :=
  (C4_multisense_preserved volerBackend ["voler".data] "voler".data
    [("VERB".data, ["to fly".data]), ("VERB".data, ["to steal".data])]
    (by decide) (by decide) (by decide) rfl).2

/-! ## Lemmas about the formatters -/

lemma dictFind_cons_ne {w k : Word} (h : w ≠ k) (ss : List Sense)
    (d : List (Word × List Sense)) :
    dictFind ((w, ss) :: d) k = dictFind d k := by
  unfold dictFind
  rw [List.find?_cons_of_neg]
  simp [h]

lemma format_lines_skip {w : Word} (ss : List Sense) (d : List (Word × List Sense)) :
    ∀ ks : List Word, w ∉ ks →
      format_lexicon_lines ((w, ss) :: d) ks = format_lexicon_lines d ks
  | [], _ => rfl
  | k :: ks, hk => by
      have hne : w ≠ k := fun hwk => hk (hwk ▸ List.mem_cons_self _ _)
      have hks : w ∉ ks := fun hmem => hk (List.mem_cons_of_mem _ hmem)
      simp only [format_lexicon_lines, List.filterMap_cons, dictFind_cons_ne hne]
      rw [show List.filterMap _ ks = format_lexicon_lines ((w, ss) :: d) ks from rfl,
          show List.filterMap _ ks = format_lexicon_lines d ks from rfl,
          format_lines_skip ss d ks hks]

/-- Counterexample to claim C8 as stated: the claim asks for exactly one line
per (base form, sense) pair for EVERY Lexicon in both modes, but the
batch-mode formatter (src/lexikon_v2.py line 152) reads only `data[word][0]`:
a lexicon entry carrying two senses yields one single line (built from the
first sense), not two. -/
theorem C8_counterexample :
    format_lexicon_lines multiSenseLexicon ["chat".data] = ["chat - cat".data] ∧
    multiSenseLexicon.map (fun p => (p.2).length) = [2] :=
  ⟨by decide, rfl⟩

/-- Claim C8, amended: (per-word mode) the output loop renders exactly one
line `source (partOfSpeech) - target` per (base form, sense) pair, base forms
in lexicon order (the loop's word order, which is sorted), each base form's
senses in their original order, and nothing else; (batch mode) the formatter
renders one line `source - target` per base form present in the data with a
non-empty sense list, using only the FIRST sense — which coincides with one
line per pair whenever every sense list is a singleton, as batch resolution
guarantees. -/
theorem C8_formatter_shape :
    (∀ G : List (Word × List Sense), renderPerWord (flattenLex G) = pairLines G) ∧
    (∀ G : List (Word × List Sense), (G.map (fun p => p.1)).Nodup →
      (∀ p ∈ G, (p.2).length = 1) →
      format_lexicon_lines G (G.map (fun p => p.1))
        = G.map (fun p => p.1 ++ " - ".data ++ ((p.2).headD ([], [])).2)) := by
  constructor
  · intro G
    induction G with
    | nil => rfl
    | cons p rest ih =>
        obtain ⟨w, ss⟩ := p
        simp only [flattenLex, pairLines, renderPerWord, List.map_append, List.map_map]
        rw [show renderLine ∘ (fun s : Sense => Entry.mk w s.1 s.2)
              = fun s : Sense => w ++ " (".data ++ s.1 ++ ") - ".data ++ s.2 from rfl]
        rw [show List.map renderLine (flattenLex rest) = renderPerWord (flattenLex rest)
              from rfl, ih]
  · intro G
    induction G with
    | nil =>
        intro _ _
        rfl
    | cons p rest ih =>
        intro hnd hsing
        obtain ⟨w, ss⟩ := p
        obtain ⟨hnotin, hndrest⟩ := List.nodup_cons.mp hnd
        obtain ⟨s, rfl⟩ := List.length_eq_one.mp (hsing (w, ss) (List.mem_cons_self _ _))
        simp only [List.map_cons, format_lexicon_lines, List.filterMap_cons]
        rw [show dictFind ((w, [s]) :: rest) w = some [s] by simp [dictFind]]
        rw [show List.filterMap _ (rest.map (fun p => p.1))
              = format_lexicon_lines ((w, [s]) :: rest) (rest.map (fun p => p.1)) from rfl]
        rw [format_lines_skip [s] rest _ hnotin]
        rw [ih hndrest (fun q hq => hsing q (List.mem_cons_of_mem _ hq))]
        rfl

/-- Witness for C8 on concrete lexicons: a two-sense per-word lexicon renders
one line per pair, and the singleton batch lexicon renders one line per base
form. -/
theorem C8_formatter_shape_witness :
    renderPerWord (flattenLex multiSenseLexicon) = pairLines multiSenseLexicon ∧
    format_lexicon_lines batchLexicon (batchLexicon.map (fun p => p.1))
      = batchLexicon.map (fun p => p.1 ++ " - ".data ++ ((p.2).headD ([], [])).2) :=
  ⟨C8_formatter_shape.1 multiSenseLexicon,
   C8_formatter_shape.2 batchLexicon (by decide) (by decide)⟩

/-! ## Lemmas about the Normalizer (`clean`) -/

lemma splitAux_sp {a : Char} (s : Word) (h : isPySpace a = true) :
    splitAux (a :: s)
      = if (splitAux s).1 = [] then ([], (splitAux s).2)
        else ([], (splitAux s).1 :: (splitAux s).2) := by
  simp [splitAux, h]

lemma splitAux_nsp {a : Char} (s : Word) (h : isPySpace a = false) :
    splitAux (a :: s) = (a :: (splitAux s).1, (splitAux s).2) := by
  simp [splitAux, h]

lemma splitAux_pred (P : Char → Prop) :
    ∀ s : Word, (∀ c ∈ s, P c) →
      (∀ c ∈ (splitAux s).1, P c ∧ isPySpace c = false) ∧
      ∀ w ∈ (splitAux s).2, ∀ c ∈ w, P c ∧ isPySpace c = false
  | [], _ => by
      constructor
      · intro c hc
        cases hc
      · intro w hw
        cases hw
  | a :: s, h => by
      obtain ⟨ih1, ih2⟩ := splitAux_pred P s (fun c hc => h c (List.mem_cons_of_mem _ hc))
      cases hsp : isPySpace a with
      | true =>
          rw [splitAux_sp s hsp]
          by_cases hq : (splitAux s).1 = []
          · rw [if_pos hq]
            exact ⟨fun c hc => absurd hc (List.not_mem_nil c), ih2⟩
          · rw [if_neg hq]
            refine ⟨fun c hc => absurd hc (List.not_mem_nil c), fun w hw => ?_⟩
            rcases List.mem_cons.mp hw with rfl | hw'
            · exact ih1
            · exact ih2 w hw'
      | false =>
          rw [splitAux_nsp s hsp]
          refine ⟨fun c hc => ?_, ih2⟩
          rcases List.mem_cons.mp hc with rfl | hc'
          · exact ⟨h c (List.mem_cons_self _ _), hsp⟩
          · exact ih1 c hc'

lemma splitAux_ne :
    ∀ s : Word, ((splitAux s).1 ≠ [] → True) ∧ ∀ w ∈ (splitAux s).2, w ≠ []
  | [] => ⟨fun _ => trivial, fun w hw => absurd hw (List.not_mem_nil w)⟩
  | a :: s => by
      obtain ⟨-, ih2⟩ := splitAux_ne s
      cases hsp : isPySpace a with
      | true =>
          rw [splitAux_sp s hsp]
          by_cases hq : (splitAux s).1 = []
          · rw [if_pos hq]
            exact ⟨fun _ => trivial, ih2⟩
          · rw [if_neg hq]
            refine ⟨fun _ => trivial, fun w hw => ?_⟩
            rcases List.mem_cons.mp hw with rfl | hw'
            · exact hq
            · exact ih2 w hw'
      | false =>
          rw [splitAux_nsp s hsp]
          exact ⟨fun _ => trivial, ih2⟩

lemma pySplit_good (P : Char → Prop) (s : Word) (h : ∀ c ∈ s, P c) :
    ∀ w ∈ pySplit s, w ≠ [] ∧ ∀ c ∈ w, P c ∧ isPySpace c = false := by
  intro w hw
  obtain ⟨h1, h2⟩ := splitAux_pred P s h
  obtain ⟨-, hne⟩ := splitAux_ne s
  unfold pySplit at hw
  by_cases hq : (splitAux s).1 = []
  · rw [if_pos hq] at hw
    exact ⟨hne w hw, h2 w hw⟩
  · rw [if_neg hq] at hw
    rcases List.mem_cons.mp hw with rfl | hw'
    · exact ⟨hq, h1⟩
    · exact ⟨hne w hw', h2 w hw'⟩

lemma splitAux_append_nonspace :
    ∀ (w s : Word), (∀ c ∈ w, isPySpace c = false) →
      splitAux (w ++ s) = (w ++ (splitAux s).1, (splitAux s).2)
  | [], s, _ => by simp
  | a :: w, s, h => by
      have ha : isPySpace a = false := h a (List.mem_cons_self _ _)
      rw [List.cons_append, splitAux_nsp _ ha,
          splitAux_append_nonspace w s (fun c hc => h c (List.mem_cons_of_mem _ hc))]
      simp

lemma splitAux_space (t : Word) : splitAux (' ' :: t) = ([], pySplit t) := by
  have hsp : isPySpace ' ' = true := by decide
  rw [splitAux_sp t hsp]
  unfold pySplit
  by_cases hq : (splitAux t).1 = []
  · rw [if_pos hq, if_pos hq]
  · rw [if_neg hq, if_neg hq]

lemma joinSpace_cons (v : Word) (vs : List Word) :
    joinSpace (v :: vs) = v ++ (if vs = [] then [] else ' ' :: joinSpace vs) := by
  cases vs with
  | nil => simp [joinSpace]
  | cons v' vs' => rfl

lemma pySplit_joinSpace : ∀ ws : List Word, goodWords ws → pySplit (joinSpace ws) = ws
  | [], _ => rfl
  | [w], hg => by
      obtain ⟨hne, hns⟩ := hg w (List.mem_cons_self _ _)
      have h1 : splitAux (joinSpace [w]) = (w, []) := by
        have h2 := splitAux_append_nonspace w [] hns
        simpa [joinSpace, splitAux] using h2
      unfold pySplit
      rw [h1, if_neg hne]
  | w :: v :: vs, hg => by
      obtain ⟨hne, hns⟩ := hg w (List.mem_cons_self _ _)
      have hgtl : goodWords (v :: vs) := fun u hu => hg u (List.mem_cons_of_mem _ hu)
      have h1 : splitAux (joinSpace (w :: v :: vs))
          = (w, pySplit (joinSpace (v :: vs))) := by
        rw [show joinSpace (w :: v :: vs) = w ++ ' ' :: joinSpace (v :: vs) from rfl,
            splitAux_append_nonspace w _ hns, splitAux_space]
        simp
      unfold pySplit
      rw [h1, if_neg hne]
      rw [show (w, pySplit (joinSpace (v :: vs))).2 = pySplit (joinSpace (v :: vs)) from rfl]
      rw [pySplit_joinSpace (v :: vs) hgtl]

lemma mem_joinSpace :
    ∀ {ws : List Word} {c : Char}, c ∈ joinSpace ws → (∃ w ∈ ws, c ∈ w) ∨ c = ' '
  | [], c, h => absurd h (List.not_mem_nil c)
  | [w], c, h => Or.inl ⟨w, List.mem_cons_self _ _, h⟩
  | w :: v :: vs, c, h => by
      rcases List.mem_append.mp h with h' | h'
      · exact Or.inl ⟨w, List.mem_cons_self _ _, h'⟩
      · rcases List.mem_cons.mp h' with rfl | h''
        · exact Or.inr rfl
        · rcases mem_joinSpace h'' with ⟨u, hu, hcu⟩ | rfl
          · exact Or.inl ⟨u, List.mem_cons_of_mem _ hu, hcu⟩
          · exact Or.inr rfl

lemma nw_nonspace_cons {c : Char} (s : Word) (h : isPySpace c = false) :
    normalize_whitespace (c :: s) = c :: normalize_whitespace s := by
  cases s with
  | nil => simp [normalize_whitespace, h]
  | cons d t => simp [normalize_whitespace, h]

lemma nw_of_nonspace : ∀ s : Word, (∀ c ∈ s, isPySpace c = false) →
    normalize_whitespace s = s
  | [], _ => rfl
  | c :: s, h => by
      rw [nw_nonspace_cons s (h c (List.mem_cons_self _ _)),
          nw_of_nonspace s (fun c hc => h c (List.mem_cons_of_mem _ hc))]

lemma nw_append (w s : Word) (hw : ∀ c ∈ w, isPySpace c = false) :
    normalize_whitespace (w ++ s) = w ++ normalize_whitespace s := by
  induction w with
  | nil => simp
  | cons c w ih =>
      rw [List.cons_append, nw_nonspace_cons _ (hw c (List.mem_cons_self _ _)),
          ih (fun c hc => hw c (List.mem_cons_of_mem _ hc)), List.cons_append]

lemma nw_space_cons {x : Char} (r : Word) (hx : isPySpace x = false) :
    normalize_whitespace (' ' :: x :: r) = ' ' :: normalize_whitespace (x :: r) := by
  simp [normalize_whitespace, hx]

lemma nw_joinSpace : ∀ ws : List Word, goodWords ws →
    normalize_whitespace (joinSpace ws) = joinSpace ws
  | [], _ => rfl
  | [w], hg => nw_of_nonspace w (hg w (List.mem_cons_self _ _)).2
  | w :: v :: vs, hg => by
      obtain ⟨hvne, hvns⟩ := hg v (List.mem_cons_of_mem _ (List.mem_cons_self _ _))
      obtain ⟨x, v', rfl⟩ : ∃ x v', v = x :: v' := by
        cases v with
        | nil => exact absurd rfl hvne
        | cons x v' => exact ⟨x, v', rfl⟩
      have hgtl : goodWords ((x :: v') :: vs) :=
        fun u hu => hg u (List.mem_cons_of_mem _ hu)
      have hxs : isPySpace x = false := hvns x (List.mem_cons_self _ _)
      have hJ : joinSpace ((x :: v') :: vs) = x :: (joinSpace ((x :: v') :: vs)).tail := by
        rw [joinSpace_cons]
        cases vs <;> simp
      rw [show joinSpace (w :: (x :: v') :: vs)
            = w ++ ' ' :: joinSpace ((x :: v') :: vs) from rfl]
      rw [nw_append _ _ (hg w (List.mem_cons_self _ _)).2]
      rw [hJ, nw_space_cons _ hxs, ← hJ, nw_joinSpace ((x :: v') :: vs) hgtl]

lemma noLeadingSpace_joinSpace : ∀ ws : List Word, goodWords ws →
    noLeadingSpace (joinSpace ws) = true
  | [], _ => rfl
  | v :: vs, hg => by
      obtain ⟨hvne, hvns⟩ := hg v (List.mem_cons_self _ _)
      obtain ⟨x, v', rfl⟩ : ∃ x v', v = x :: v' := by
        cases v with
        | nil => exact absurd rfl hvne
        | cons x v' => exact ⟨x, v', rfl⟩
      have hxs : isPySpace x = false := hvns x (List.mem_cons_self _ _)
      rw [joinSpace_cons, List.cons_append]
      have : (x == ' ') = false := by
        cases hxeq : (x == ' ') with
        | false => rfl
        | true =>
            rw [show x = ' ' from by simpa using hxeq] at hxs
            simp [isPySpace] at hxs
      simp [noLeadingSpace, this]

lemma noTrailingSpace_cons_ne {c : Char} {s : Word} (h : s ≠ []) :
    noTrailingSpace (c :: s) = noTrailingSpace s := by
  cases s with
  | nil => exact absurd rfl h
  | cons d t => rfl

lemma noTrailingSpace_append (w : Word) {s : Word} (h : s ≠ []) :
    noTrailingSpace (w ++ s) = noTrailingSpace s := by
  induction w with
  | nil => rfl
  | cons c w ih =>
      rw [List.cons_append, noTrailingSpace_cons_ne (by simp [h]), ih]

lemma noTrailingSpace_of_nonspace : ∀ s : Word, (∀ c ∈ s, isPySpace c = false) →
    noTrailingSpace s = true
  | [], _ => rfl
  | [c], h => by
      have hc := h c (List.mem_cons_self _ _)
      have : (c == ' ') = false := by
        cases hxeq : (c == ' ') with
        | false => rfl
        | true =>
            rw [show c = ' ' from by simpa using hxeq] at hc
            simp [isPySpace] at hc
      simp [noTrailingSpace, this]
  | c :: d :: t, h => by
      rw [noTrailingSpace_cons_ne (by simp)]
      exact noTrailingSpace_of_nonspace (d :: t)
        (fun c hc => h c (List.mem_cons_of_mem _ hc))

lemma noTrailingSpace_joinSpace : ∀ ws : List Word, goodWords ws →
    noTrailingSpace (joinSpace ws) = true
  | [], _ => rfl
  | [w], hg => noTrailingSpace_of_nonspace w (hg w (List.mem_cons_self _ _)).2
  | w :: v :: vs, hg => by
      obtain ⟨hvne, -⟩ := hg v (List.mem_cons_of_mem _ (List.mem_cons_self _ _))
      have hJne : joinSpace (v :: vs) ≠ [] := by
        rw [joinSpace_cons]
        cases v with
        | nil => exact absurd rfl hvne
        | cons x v' => simp
      rw [show joinSpace (w :: v :: vs) = w ++ ' ' :: joinSpace (v :: vs) from rfl,
          noTrailingSpace_append w (by simp), noTrailingSpace_cons_ne hJne]
      exact noTrailingSpace_joinSpace (v :: vs) (fun u hu => hg u (List.mem_cons_of_mem _ hu))

lemma noDoubleSpace_cons_nonspace {c : Char} (s : Word) (h : isPySpace c = false) :
    noDoubleSpace (c :: s) = noDoubleSpace s := by
  have : (c == ' ') = false := by
    cases hxeq : (c == ' ') with
    | false => rfl
    | true =>
        rw [show c = ' ' from by simpa using hxeq] at h
        simp [isPySpace] at h
  cases s with
  | nil => simp [noDoubleSpace]
  | cons d t => simp [noDoubleSpace, this]

lemma noDoubleSpace_append (w : Word) (s : Word) (hw : ∀ c ∈ w, isPySpace c = false) :
    noDoubleSpace (w ++ s) = noDoubleSpace s := by
  induction w with
  | nil => rfl
  | cons c w ih =>
      rw [List.cons_append, noDoubleSpace_cons_nonspace _ (hw c (List.mem_cons_self _ _)),
          ih (fun c hc => hw c (List.mem_cons_of_mem _ hc))]

lemma noDoubleSpace_joinSpace : ∀ ws : List Word, goodWords ws →
    noDoubleSpace (joinSpace ws) = true
  | [], _ => rfl
  | [w], hg => by
      have h := noDoubleSpace_append w [] (hg w (List.mem_cons_self _ _)).2
      simpa using h
  | w :: v :: vs, hg => by
      obtain ⟨hvne, hvns⟩ := hg v (List.mem_cons_of_mem _ (List.mem_cons_self _ _))
      obtain ⟨x, v', rfl⟩ : ∃ x v', v = x :: v' := by
        cases v with
        | nil => exact absurd rfl hvne
        | cons x v' => exact ⟨x, v', rfl⟩
      have hxs : isPySpace x = false := hvns x (List.mem_cons_self _ _)
      have hxe : (x == ' ') = false := by
        cases hxeq : (x == ' ') with
        | false => rfl
        | true =>
            rw [show x = ' ' from by simpa using hxeq] at hxs
            simp [isPySpace] at hxs
      have hJ : joinSpace ((x :: v') :: vs) = x :: (joinSpace ((x :: v') :: vs)).tail := by
        rw [joinSpace_cons]
        cases vs <;> simp
      rw [show joinSpace (w :: (x :: v') :: vs)
            = w ++ ' ' :: joinSpace ((x :: v') :: vs) from rfl,
          noDoubleSpace_append w _ (hg w (List.mem_cons_self _ _)).2, hJ]
      rw [show noDoubleSpace (' ' :: x :: (joinSpace ((x :: v') :: vs)).tail)
            = (!(' ' == ' ' && x == ' ')
                && noDoubleSpace (x :: (joinSpace ((x :: v') :: vs)).tail)) from rfl]
      rw [hxe, ← hJ]
      simp only [Bool.and_false, Bool.not_false, Bool.true_and]
      exact noDoubleSpace_joinSpace ((x :: v') :: vs)
        (fun u hu => hg u (List.mem_cons_of_mem _ hu))

lemma remove_punctuation_chars (s : Word) :
    ∀ c ∈ remove_punctuation s, (isFrLetter c || c == ' ') = true := by
  intro c hc
  obtain ⟨a, -, rfl⟩ := List.mem_map.mp hc
  by_cases h : (isFrLetter a || a == ' ') = true
  · rw [if_pos h]
    exact h
  · rw [if_neg h]
    decide

lemma cleanWords_good (sw : List Word) (s : Word) : goodWords (cleanWords sw s) := by
  intro w hw
  have hw' : w ∈ pySplit (remove_punctuation (pyLower s)) := List.mem_of_mem_filter hw
  obtain ⟨hne, hch⟩ := pySplit_good (fun c => (isFrLetter c || c == ' ') = true) _
    (remove_punctuation_chars _) w hw'
  exact ⟨hne, fun c hc => (hch c hc).2⟩

lemma cleanWords_chars (sw : List Word) (s : Word) :
    ∀ w ∈ cleanWords sw s, ∀ c ∈ w, isFrLetter c = true := by
  intro w hw c hc
  have hw' : w ∈ pySplit (remove_punctuation (pyLower s)) := List.mem_of_mem_filter hw
  obtain ⟨-, hch⟩ := pySplit_good (fun c => (isFrLetter c || c == ' ') = true) _
    (remove_punctuation_chars _) w hw'
  obtain ⟨hP, hns⟩ := hch c hc
  rcases Bool.or_eq_true_iff.mp hP with h | h
  · exact h
  · rw [show c = ' ' from by simpa using h] at hns
    simp [isPySpace] at hns

lemma clean_eq_join (sw : List Word) (s : Word) :
    clean sw s = joinSpace (cleanWords sw s) :=
  nw_joinSpace (cleanWords sw s) (cleanWords_good sw s)

lemma splitAux_all_space :
    ∀ s : Word, (∀ c ∈ s, isPySpace c = true) → splitAux s = ([], [])
  | [], _ => rfl
  | a :: s, h => by
      rw [splitAux_sp s (h a (List.mem_cons_self _ _)),
          splitAux_all_space s (fun c hc => h c (List.mem_cons_of_mem _ hc))]
      simp

lemma map_fixes {f : Char → Char} :
    ∀ l : Word, (∀ c ∈ l, f c = c) → l.map f = l
  | [], _ => rfl
  | c :: l, h => by
      rw [List.map_cons, h c (List.mem_cons_self _ _),
          map_fixes l (fun c hc => h c (List.mem_cons_of_mem _ hc))]

lemma pyLowerChar_frLetter {c : Char} (h : isFrLetter c = true) : pyLowerChar c = c :=
  (by decide : ∀ c ∈ frAlphabet, pyLowerChar c = c) c
    (by simpa [isFrLetter] using h)

/-- Claim C5: the Normalizer (`clean`) is total — for every input string and
stop-word list the output contains only source-alphabet letters and single
spaces, with no leading, trailing or doubled space, and an input with no
alphabetic content (after lowering) produces the empty string. -/
theorem C5_normalizer_totality (sw : List Word) (s : Word) :
    onlyLettersAndSpaces (clean sw s) = true ∧
    noLeadingSpace (clean sw s) = true ∧
    noTrailingSpace (clean sw s) = true ∧
    noDoubleSpace (clean sw s) = true ∧
    ((pyLower s).all (fun c => !isFrLetter c) = true → clean sw s = []) := by
  rw [clean_eq_join]
  refine ⟨?_, noLeadingSpace_joinSpace _ (cleanWords_good sw s),
    noTrailingSpace_joinSpace _ (cleanWords_good sw s),
    noDoubleSpace_joinSpace _ (cleanWords_good sw s), ?_⟩
  · unfold onlyLettersAndSpaces
    rw [List.all_eq_true]
    intro c hc
    rcases mem_joinSpace hc with ⟨w, hw, hcw⟩ | rfl
    · simp [cleanWords_chars sw s w hw c hcw]
    · decide
  · intro hall
    rw [List.all_eq_true] at hall
    suffices h : cleanWords sw s = [] by rw [h]; rfl
    have hsp : ∀ c ∈ remove_punctuation (pyLower s), isPySpace c = true := by
      intro c hc
      obtain ⟨a, ha, rfl⟩ := List.mem_map.mp hc
      have hf : isFrLetter a = false := by simpa using hall a ha
      by_cases hcnd : (isFrLetter a || a == ' ') = true
      · rw [if_pos hcnd]
        rcases Bool.or_eq_true_iff.mp hcnd with h' | h'
        · rw [hf] at h'
          cases h'
        · rw [show a = ' ' from by simpa using h']
          decide
      · rw [if_neg hcnd]
        decide
    have hz : splitAux (remove_punctuation (pyLower s)) = ([], []) :=
      splitAux_all_space _ hsp
    unfold cleanWords pySplit
    rw [hz]
    simp

/-- Witness for C5 on concrete inputs: a text with punctuation, digits and a
stop word cleans to a canonical string, and a text with no alphabetic content
cleans to the empty string. -/
theorem C5_normalizer_totality_witness :
    onlyLettersAndSpaces (clean ["le".data] "Le chat!! 42".data) = true ∧
    noLeadingSpace (clean ["le".data] "Le chat!! 42".data) = true ∧
    noTrailingSpace (clean ["le".data] "Le chat!! 42".data) = true ∧
    noDoubleSpace (clean ["le".data] "Le chat!! 42".data) = true ∧
    clean ["le".data] "42 ?!".data = [] :=
  ⟨(C5_normalizer_totality ["le".data] "Le chat!! 42".data).1,
   (C5_normalizer_totality ["le".data] "Le chat!! 42".data).2.1,
   (C5_normalizer_totality ["le".data] "Le chat!! 42".data).2.2.1,
   (C5_normalizer_totality ["le".data] "Le chat!! 42".data).2.2.2.1,
   (C5_normalizer_totality ["le".data] "42 ?!".data).2.2.2.2 (by decide)⟩

/-- Claim C10: the per-word-mode cleaning function is idempotent — for every
stop-word list and every input string, `clean(clean(s)) = clean(s)`. -/
theorem C10_clean_idempotent (sw : List Word) (s : Word) :
    clean sw (clean sw s) = clean sw s := by
  have hg := cleanWords_good sw s
  have hch := cleanWords_chars sw s
  have hju : clean sw s = joinSpace (cleanWords sw s) := clean_eq_join sw s
  have hchars : ∀ c ∈ joinSpace (cleanWords sw s), isFrLetter c = true ∨ c = ' ' := by
    intro c hc
    rcases mem_joinSpace hc with ⟨w, hw, hcw⟩ | rfl
    · exact Or.inl (hch w hw c hcw)
    · exact Or.inr rfl
  have hlower : pyLower (joinSpace (cleanWords sw s)) = joinSpace (cleanWords sw s) := by
    apply map_fixes
    intro c hc
    rcases hchars c hc with h | rfl
    · exact pyLowerChar_frLetter h
    · decide
  have hrp : remove_punctuation (joinSpace (cleanWords sw s))
      = joinSpace (cleanWords sw s) := by
    apply map_fixes
    intro c hc
    have hcnd : (isFrLetter c || c == ' ') = true := by
      rcases hchars c hc with h | rfl
      · simp [h]
      · decide
    rw [if_pos hcnd]
  have hfilter : (cleanWords sw s).filter (fun w => !sw.contains w) = cleanWords sw s := by
    apply List.filter_eq_self.mpr
    intro w hw
    have hw' : w ∈ (pySplit (remove_punctuation (pyLower s))).filter
        (fun w => !sw.contains w) := hw
    exact @List.of_mem_filter Word (fun w => !sw.contains w) w
      (pySplit (remove_punctuation (pyLower s))) hw'
  calc clean sw (clean sw s)
      = clean sw (joinSpace (cleanWords sw s)) := by rw [hju]
    _ = normalize_whitespace (joinSpace
          ((pySplit (joinSpace (cleanWords sw s))).filter (fun w => !sw.contains w))) := by
        unfold clean remove_stop_words
        rw [hlower, hrp]
    _ = normalize_whitespace (joinSpace (cleanWords sw s)) := by
        rw [pySplit_joinSpace _ hg, hfilter]
    _ = joinSpace (cleanWords sw s) := nw_joinSpace _ hg
    _ = clean sw s := hju.symm

/-- Counterexample to claim C9 as stated: the base form `b` (length 1, not in
the code's only one-letter list) reaches the Translation Resolver, so length-1
base forms are NOT restricted to an explicit allow-list of meaningful
one-letter words — src/lexikon_v2.py line 59 keeps every one-letter lemma
EXCEPT `y`, `a`, `à`, `ô`, `ç`, and src/hit_api.py has no length filter at
all. -/
theorem C9_counterexample :
    extract_unique_lemmas [oneLetterToken] = ["b".data] ∧
    ("b".data).length = 1 ∧
    "b".data ∉ oneLetterBlockList :=
  ⟨by decide, rfl, by decide⟩

/-- Claim C9, amended: every base form that reaches the Translation Resolver
is non-empty; in stop-word mode (src/hit_api.py, `process`) it moreover
consists only of source-alphabet letters, with NO length requirement; in
tag-based mode (src/lexikon_v2.py, `extract_unique_lemmas`) a base form of
length 1 is kept exactly when it is NOT in the one-letter block-list
`('y', 'a', 'à', 'ô', 'ç')` (the inverse of the claimed allow-list rule), and
the lemma's own characters are not validated. -/
theorem C9_baseform_invariant :
    (∀ (sw : List Word) (s : Word), ∀ w ∈ process sw s,
      w ≠ [] ∧ w.all isFrLetter = true) ∧
    (∀ doc : List SpacyToken, ∀ w ∈ extract_unique_lemmas doc,
      w ≠ [] ∧ (w.length = 1 → oneLetterBlockList.contains w = false)) := by
  constructor
  · intro sw s w hw
    have hw1 : w ∈ pySplit (clean sw s) := mem_normalize hw
    rw [clean_eq_join, pySplit_joinSpace _ (cleanWords_good sw s)] at hw1
    refine ⟨(cleanWords_good sw s w hw1).1, ?_⟩
    rw [List.all_eq_true]
    exact fun c hc => cleanWords_chars sw s w hw1 c hc
  · intro doc w hw
    have hw1 : w ∈ doc.filterMap tokenLemma := mem_normalize hw
    obtain ⟨t, -, ht⟩ := List.mem_filterMap.mp hw1
    unfold tokenLemma at ht
    by_cases h1 : (t.is_alpha && !t.is_stop && !undesirable_pos.contains t.pos_) = true
    · rw [if_pos h1] at ht
      by_cases h2 : ((pyStrip (pyLower t.lemma_)).length > 1
          || ((pyStrip (pyLower t.lemma_)).length == 1
              && !oneLetterBlockList.contains (pyStrip (pyLower t.lemma_)))) = true
      · rw [if_pos h2] at ht
        obtain rfl : pyStrip (pyLower t.lemma_) = w := Option.some.inj ht
        simp only [Bool.or_eq_true, decide_eq_true_eq, Bool.and_eq_true,
          beq_iff_eq, Bool.not_eq_true'] at h2
        rcases h2 with h2 | ⟨h2a, h2b⟩
        · refine ⟨?_, fun hlen => absurd (hlen ▸ h2) (by simp)⟩
          intro hnil
          rw [hnil] at h2
          simp at h2
        · refine ⟨?_, fun _ => h2b⟩
          intro hnil
          rw [hnil] at h2a
          simp at h2a
      · rw [if_neg h2] at ht
        cases ht
    · rw [if_neg h1] at ht
      cases ht

/-- Witness for C9 (amended) on concrete runs: `chat` out of the stop-word
pipeline is non-empty and all-alphabetic, and the one-letter lemma `b` out of
the tag-based pipeline is non-empty and not block-listed. -/
theorem C9_baseform_invariant_witness :
    ("chat".data ≠ ([] : Word) ∧ ("chat".data).all isFrLetter = true) ∧
    ("b".data ≠ ([] : Word) ∧
      oneLetterBlockList.contains "b".data = false) :=
  ⟨C9_baseform_invariant.1 ["le".data] "Le chat!".data "chat".data (by decide),
   ⟨(C9_baseform_invariant.2 [oneLetterToken] "b".data (by decide)).1,
    (C9_baseform_invariant.2 [oneLetterToken] "b".data (by decide)).2 (by decide)⟩⟩

end Lexikon
